import Mathlib

/-!
Verification of the pay-gated access-control core of the Walrus pay-to-view
NFT repository.

The on-chain part is the Move module `0x0::seal_access`
(src/contracts/sources/seal_access.move): a shared `PaymentRegistry` holding
a two-level table `content_id -> (user_address -> bool)`, the entry function
`seal_approve` (the access gate evaluated at decryption time) and the view
function `has_paid`.

The off-chain part is the decryption pipeline `handleDecrypt` in
src/dapp/src/components/NFTGallery.tsx, modelled here only as far as its
step sequencing and error classification are concerned.

Modelling conventions:
  * Move `sui::table::Table<K, V>` is modelled as an association list
    `Walrus.Table K V` with first-match lookup; `table::add` prepends,
    `table::contains` tests key membership, `table::borrow` is `getVal`
    and writing through a `table::borrow_mut` reference is `setVal`.
  * `vector<u8>` content ids are `List Nat`, `address` is `Nat`,
    `Coin<SUI>` is a one-field structure holding its `u64` value as `Nat`
    (only compared against the fee, so width does not matter).
  * A Move `assert!` failure aborts the whole transaction and Sui rolls
    back every effect of an aborted transaction; `seal_approve` models the
    function body with `Except` and `evaluate` wraps it with that
    transactional rollback.
  * The `UID` field of the registry is omitted: it is never read or
    written by the functions under study.
-/

namespace Walrus

/-- Association-list model of `sui::table::Table<K, V>`. -/
abbrev Table (κ ν : Type) : Type := List (κ × ν)

/-- Model of `table::contains`: is the key present. -/
def Table.containsKey {κ ν : Type} [DecidableEq κ] (t : Table κ ν) (k : κ) : Bool :=
  t.any fun e => e.1 = k

/-- Model of `table::add` (the code only calls it on absent keys). -/
def Table.add {κ ν : Type} (t : Table κ ν) (k : κ) (v : ν) : Table κ ν :=
  (k, v) :: t

/-- Model of `table::borrow`: first value stored at the key, if any. -/
def Table.getVal {κ ν : Type} [DecidableEq κ] (t : Table κ ν) (k : κ) : Option ν :=
  (t.find? fun e => decide (e.1 = k)).map (·.2)

/-- Writing a new value through a `table::borrow_mut` reference at key `k`. -/
def Table.setVal {κ ν : Type} [DecidableEq κ] (t : Table κ ν) (k : κ) (v : ν) : Table κ ν :=
  t.map fun e => if e.1 = k then (e.1, v) else e

/-- Content identifier: the `vector<u8>` blob id. -/
abbrev ContentId := List Nat

/-- Sui account address of the requester. -/
abbrev Address := Nat

/-- Model of `Coin<SUI>`: only its `coin::value` is ever inspected. -/
structure Coin where
  value : Nat
deriving DecidableEq, Repr

/-- The shared `PaymentRegistry` object: `content_id -> (user_address -> has_paid)`.
The `UID` field is omitted (never used by the functions modelled here). -/
structure PaymentRegistry where
  payments : Table ContentId (Table Address Bool)
deriving DecidableEq, Repr

/-- Abort code of the failed fee assertion (`const ENotPaid: u64 = 1`). -/
def ENotPaid : Nat := 1

/-- Outcome of one `seal_approve` evaluation, in the spec vocabulary:
`AlreadyPaid` is the early `return` on a recorded payment, `PaymentAccepted`
is the path that records a new payment, `PaymentInsufficient` is the
`assert!(payment_amount >= required, ENotPaid)` abort. -/
inductive AccessDecision where
  | AlreadyPaid
  | PaymentAccepted
  | PaymentInsufficient
deriving DecidableEq, Repr

/-- Body of `entry fun seal_approve` from seal_access.move, line by line:
read the sender and the coin value, lazily create the inner table for a
never-seen content id, return early when the sender is already recorded,
abort with `ENotPaid` when the coin value is below the 5_000_000 fee, and
otherwise record `(sender, true)` in the inner table. The decision marks
which exit was taken; the Move function itself returns unit. -/
def seal_approve (content_id : ContentId) (registry : PaymentRegistry)
    (fee_coin : Coin) (sender : Address) :
    Except Nat (AccessDecision × PaymentRegistry) :=
  let required : Nat := 5000000
  let payment_amount := fee_coin.value
  let payments0 :=
    if ¬ Table.containsKey registry.payments content_id then
      Table.add registry.payments content_id ([] : Table Address Bool)
    else registry.payments
  let content_payments := (Table.getVal payments0 content_id).getD []
  if Table.containsKey content_payments sender then
    .ok (.AlreadyPaid, { payments := payments0 })
  else if payment_amount < required then
    .error ENotPaid
  else
    .ok (.PaymentAccepted,
      { payments := Table.setVal payments0 content_id
          (Table.add content_payments sender true) })

/-- Transaction-level view of one `seal_approve` call: a Move abort rolls
back every effect of the transaction, so the failed-assertion path leaves
the registry exactly as it was and is reported as `PaymentInsufficient`. -/
def evaluate (content_id : ContentId) (registry : PaymentRegistry)
    (fee_coin : Coin) (sender : Address) : AccessDecision × PaymentRegistry :=
  match seal_approve content_id registry fee_coin sender with
  | .ok (d, reg) => (d, reg)
  | .error _ => (.PaymentInsufficient, registry)

/-- Transaction-level view that also tracks the payment instrument.
`seal_approve` receives the coin as `fee_coin: &Coin<SUI>`, an immutable
reference: its body only calls `coin::value(fee_coin)` and contains no
split, join or transfer, so on every path the caller keeps the coin with
its value intact. -/
def evaluateWithCoin (content_id : ContentId) (registry : PaymentRegistry)
    (fee_coin : Coin) (sender : Address) :
    AccessDecision × PaymentRegistry × Coin :=
  let r := evaluate content_id registry fee_coin sender
  (r.1, r.2, fee_coin)

/-- Model of `public fun has_paid`: `false` when the content id is absent
from the outer table, otherwise membership of the user in the inner table.
(`Table.getVal` is `none` exactly when `table::contains` is false, see
`containsKey_eq_isSome_getVal` below, so the early-return branch and the
borrow are folded into one `match`.) -/
def has_paid (registry : PaymentRegistry) (content_id : ContentId)
    (user_addr : Address) : Bool :=
  match Table.getVal registry.payments content_id with
  | none => false
  | some content_payments => Table.containsKey content_payments user_addr

/-- State of the registry right after `init` / `init_registry`:
`table::new` gives an empty outer table. -/
def init_registry : PaymentRegistry := { payments := [] }

/-- One registry-mutating operation a caller can submit: a `seal_approve`
transaction with a content id, a fee coin value and a sender. (`has_paid`
takes `&PaymentRegistry` and is read-only, so it never changes the state.) -/
structure Op where
  content : ContentId
  fee : Nat
  sender : Address
deriving DecidableEq, Repr

/-- Run a sequence of `seal_approve` transactions against the registry; each
transaction is atomic under Sui consensus, so any concurrent schedule is
some such serial sequence. -/
def runOps (registry : PaymentRegistry) (ops : List Op) : PaymentRegistry :=
  ops.foldl (fun reg op => (evaluate op.content reg ⟨op.fee⟩ op.sender).2) registry

/-- Run several `seal_approve` calls for the same (content, sender) pair,
one per listed fee value, collecting the decisions in order. -/
def runSame (content_id : ContentId) (sender : Address)
    (registry : PaymentRegistry) : List Nat → List AccessDecision × PaymentRegistry
  | [] => ([], registry)
  | f :: rest =>
    let r := evaluate content_id registry ⟨f⟩ sender
    let rec' := runSame content_id sender r.2 rest
    (r.1 :: rec'.1, rec'.2)

/-- Number of inner-table entries recorded for a given (content, requester)
pair: counts how many times the pair has been inserted. -/
def pairEntryCount (registry : PaymentRegistry) (content_id : ContentId)
    (user_addr : Address) : Nat :=
  match Table.getVal registry.payments content_id with
  | none => 0
  | some content_payments =>
    (content_payments.filter fun e => e.1 = user_addr).length

/-- Total number of recorded (content, requester) entries in the ledger. -/
def ledgerSize (registry : PaymentRegistry) : Nat :=
  (registry.payments.map fun e => e.2.length).sum

/-- Does every entry of every inner table store the boolean `true`? -/
def allValuesTrue (registry : PaymentRegistry) : Bool :=
  registry.payments.all fun e => e.2.all fun p => p.2

/-- The boolean actually stored for a pair, when the pair has an entry. -/
def storedFlag (registry : PaymentRegistry) (content_id : ContentId)
    (user_addr : Address) : Option Bool :=
  (Table.getVal registry.payments content_id).bind fun content_payments =>
    Table.getVal content_payments user_addr

/-!
Off-chain pipeline model (`handleDecrypt` in NFTGallery.tsx).

Each external call the function awaits — the Walrus fetch, SessionKey
creation, the wallet signature, the transaction build, and
`sealClient.decrypt` — is a promise that either resolves, rejects with a
message, or never settles. Awaiting a promise that never settles suspends
the async function forever: no later statement runs, including the
`finally` block. The source contains no `AbortController`, `setTimeout` or
`Promise.race`, so no await is bounded by a timer.
-/

/-- Behaviour of one awaited external call. -/
inductive StepBehavior (α : Type) where
  | ok (a : α)
  | err (msg : String)
  | hang
deriving DecidableEq, Repr

/-- Observable outcome of one `handleDecrypt` run: the decrypted bytes,
the `setDecryptError` message, or no outcome at all because some await
never settled. -/
inductive PipelineOutcome where
  | success (plaintext : List Nat)
  | failed (msg : String)
  | hangs
deriving DecidableEq, Repr

/-- Awaiting one external call: continue on resolution, classify a
rejection with the step's catch-block message prefix, and suspend forever
when the promise never settles. -/
def awaitStep {α : Type} (b : StepBehavior α) (wrap : String → String)
    (k : α → PipelineOutcome) : PipelineOutcome :=
  match b with
  | .ok a => k a
  | .err m => .failed (wrap m)
  | .hang => .hangs

/-- Control-flow skeleton of `handleDecrypt`: fetch the encrypted blob
(step 1, failing on an empty result), create the SessionKey (step 2),
collect the wallet signature over the personal message (step 3), build the
approval transaction bytes (steps 4–5, failing on empty bytes), call
`sealClient.decrypt` (step 6, failing on an empty result), and publish the
plaintext. Rejection messages carry the prefixes of the source's catch
blocks; the fetch step throws its message unwrapped. -/
def handleDecrypt (fetchBlob : StepBehavior (List Nat))
    (createSessionKey : StepBehavior Unit)
    (signPersonalMsg : StepBehavior String)
    (buildTx : StepBehavior (List Nat))
    (sealDecrypt : StepBehavior (List Nat)) : PipelineOutcome :=
  awaitStep fetchBlob (fun m => m) fun encryptedBytes =>
    if encryptedBytes.length = 0 then
      .failed "Fetched encrypted blob is empty"
    else
      awaitStep createSessionKey
          (fun m => "Failed to create SessionKey: " ++ m) fun _ =>
        awaitStep signPersonalMsg
            (fun m => "Wallet signature failed: " ++ m) fun _signature =>
          awaitStep buildTx
              (fun m => "Failed to build transaction: " ++ m) fun txBytes =>
            if txBytes.length = 0 then
              .failed "Transaction bytes are empty after building"
            else
              awaitStep sealDecrypt
                  (fun m => "Seal decryption failed: " ++ m) fun decrypted =>
                if decrypted.length = 0 then
                  .failed "Decryption returned empty result"
                else
                  .success decrypted

/-- Byte encoding of the content id "blob-1" used in the spec scenarios. -/
def blob1 : ContentId := [98, 108, 111, 98, 45, 49]

/-- Registry after requester 7 paid the exact fee for "blob-1" starting from
the freshly initialised registry. -/
def paidReg1 : PaymentRegistry := (evaluate blob1 init_registry ⟨5000000⟩ 7).2

/-!
Lemmas about the association-list table model.
-/

theorem Table.containsKey_eq_isSome_getVal {κ ν : Type} [DecidableEq κ]
    (t : Table κ ν) (k : κ) :
    Table.containsKey t k = (Table.getVal t k).isSome := by
  induction t with
  | nil => rfl
  | cons e rest ih =>
    by_cases h : e.1 = k <;>
      simp [Table.containsKey, Table.getVal, List.find?_cons, h] at ih ⊢ <;>
      simpa [Table.containsKey, Table.getVal] using ih

theorem Table.getVal_add_self {κ ν : Type} [DecidableEq κ]
    (t : Table κ ν) (k : κ) (v : ν) :
    Table.getVal (Table.add t k v) k = some v := by
  simp [Table.getVal, Table.add, List.find?_cons]

theorem Table.getVal_add_of_ne {κ ν : Type} [DecidableEq κ]
    (t : Table κ ν) (k k' : κ) (v : ν) (h : k' ≠ k) :
    Table.getVal (Table.add t k v) k' = Table.getVal t k' := by
  simp [Table.getVal, Table.add, List.find?_cons, Ne.symm h]

theorem Table.containsKey_add {κ ν : Type} [DecidableEq κ]
    (t : Table κ ν) (k k' : κ) (v : ν) :
    Table.containsKey (Table.add t k v) k' =
      (decide (k = k') || Table.containsKey t k') := by
  simp [Table.containsKey, Table.add]

theorem Table.getVal_setVal_self {κ ν : Type} [DecidableEq κ]
    (t : Table κ ν) (k : κ) (v : ν) :
    Table.getVal (Table.setVal t k v) k = (Table.getVal t k).map fun _ => v := by
  induction t with
  | nil => rfl
  | cons e rest ih =>
    by_cases h : e.1 = k <;>
      simp [Table.getVal, Table.setVal, List.find?_cons, h] at ih ⊢ <;>
      simpa [Table.getVal, Table.setVal] using ih

theorem Table.getVal_setVal_of_ne {κ ν : Type} [DecidableEq κ]
    (t : Table κ ν) (k k' : κ) (v : ν) (h : k' ≠ k) :
    Table.getVal (Table.setVal t k v) k' = Table.getVal t k' := by
  induction t with
  | nil => rfl
  | cons e rest ih =>
    rcases e with ⟨k₀, v₀⟩
    by_cases he : k₀ = k
    · subst he
      have hk : ¬ (k₀ = k') := fun hh => h hh.symm
      simpa [Table.setVal, Table.getVal, List.find?_cons, hk] using ih
    · by_cases he' : k₀ = k'
      · subst he'
        simp [Table.setVal, Table.getVal, List.find?_cons, he]
      · simpa [Table.setVal, Table.getVal, List.find?_cons, he, he'] using ih

theorem Table.getVal_eq_some_mem {κ ν : Type} [DecidableEq κ]
    (t : Table κ ν) (k : κ) (v : ν) (h : Table.getVal t k = some v) :
    (k, v) ∈ t := by
  unfold Table.getVal at h
  cases hf : t.find? fun e => decide (e.1 = k) with
  | none => rw [hf] at h; simp at h
  | some e =>
    rw [hf] at h
    have hm := List.mem_of_find?_eq_some hf
    have hp := List.find?_some hf
    simp at hp h
    rcases e with ⟨k₀, v₀⟩
    simp at hp
    subst hp
    subst h
    exact hm

theorem Table.filter_eq_nil_of_not_containsKey {κ ν : Type} [DecidableEq κ]
    (t : Table κ ν) (k : κ) (h : Table.containsKey t k = false) :
    (t.filter fun e => decide (e.1 = k)) = [] := by
  unfold Table.containsKey at h
  rw [List.filter_eq_nil_iff]
  intro e he
  by_contra hc
  simp at hc
  have : t.any (fun e => decide (e.1 = k)) = true := by
    rw [List.any_eq_true]
    exact ⟨e, he, by simp [hc]⟩
  rw [this] at h
  exact Bool.true_eq_false.mp h

/-!
Behaviour of one `seal_approve` transaction.
-/

theorem has_paid_true_iff (reg : PaymentRegistry) (c : ContentId) (r : Address) :
    has_paid reg c r = true ↔
      ∃ cp, Table.getVal reg.payments c = some cp ∧ Table.containsKey cp r = true := by
  unfold has_paid
  cases hg : Table.getVal reg.payments c <;> simp

theorem has_paid_false_iff (reg : PaymentRegistry) (c : ContentId) (r : Address) :
    has_paid reg c r = false ↔
      Table.getVal reg.payments c = none ∨
      ∃ cp, Table.getVal reg.payments c = some cp ∧ Table.containsKey cp r = false := by
  unfold has_paid
  cases hg : Table.getVal reg.payments c <;> simp

theorem evaluate_already_paid (reg : PaymentRegistry) (c : ContentId) (coin : Coin)
    (r : Address) (h : has_paid reg c r = true) :
    evaluate c reg coin r = (.AlreadyPaid, reg) := by
  obtain ⟨cp, hg, hc⟩ := (has_paid_true_iff reg c r).mp h
  have hck : Table.containsKey reg.payments c = true := by
    rw [Table.containsKey_eq_isSome_getVal, hg]; rfl
  unfold evaluate seal_approve
  simp [hck, hg, hc]

theorem evaluate_eq_of_new_content (reg : PaymentRegistry) (c : ContentId)
    (coin : Coin) (r : Address) (hn : Table.getVal reg.payments c = none)
    (hv : 5000000 ≤ coin.value) :
    evaluate c reg coin r =
      (.PaymentAccepted,
        { payments := Table.setVal (Table.add reg.payments c []) c
            (Table.add [] r true) }) := by
  have hck : Table.containsKey reg.payments c = false := by
    rw [Table.containsKey_eq_isSome_getVal, hn]; rfl
  have hcr : Table.containsKey ([] : Table Address Bool) r = false := rfl
  have hnlt : ¬ coin.value < 5000000 := not_lt.mpr hv
  unfold evaluate seal_approve
  simp [hck, hcr, hnlt, Table.getVal_add_self]

theorem evaluate_eq_of_seen_content (reg : PaymentRegistry) (c : ContentId)
    (coin : Coin) (r : Address) (cp : Table Address Bool)
    (hg : Table.getVal reg.payments c = some cp)
    (hc : Table.containsKey cp r = false) (hv : 5000000 ≤ coin.value) :
    evaluate c reg coin r =
      (.PaymentAccepted,
        { payments := Table.setVal reg.payments c (Table.add cp r true) }) := by
  have hck : Table.containsKey reg.payments c = true := by
    rw [Table.containsKey_eq_isSome_getVal, hg]; rfl
  have hnlt : ¬ coin.value < 5000000 := not_lt.mpr hv
  unfold evaluate seal_approve
  simp [hck, hg, hc, hnlt]

theorem evaluate_accepts (reg : PaymentRegistry) (c : ContentId) (coin : Coin)
    (r : Address) (h : has_paid reg c r = false) (hv : 5000000 ≤ coin.value) :
    (evaluate c reg coin r).1 = .PaymentAccepted ∧
    has_paid (evaluate c reg coin r).2 c r = true ∧
    pairEntryCount (evaluate c reg coin r).2 c r = 1 := by
  rcases (has_paid_false_iff reg c r).mp h with hn | ⟨cp, hg, hc⟩
  · rw [evaluate_eq_of_new_content reg c coin r hn hv]
    refine ⟨rfl, ?_, ?_⟩
    · unfold has_paid
      rw [Table.getVal_setVal_self, Table.getVal_add_self]
      simp [Table.containsKey, Table.add]
    · unfold pairEntryCount
      rw [Table.getVal_setVal_self, Table.getVal_add_self]
      simp [Table.add]
  · rw [evaluate_eq_of_seen_content reg c coin r cp hg hc hv]
    refine ⟨rfl, ?_, ?_⟩
    · unfold has_paid
      rw [Table.getVal_setVal_self, hg]
      simp [Table.containsKey, Table.add]
    · unfold pairEntryCount
      rw [Table.getVal_setVal_self, hg]
      simp [Table.add, List.filter_cons, Table.filter_eq_nil_of_not_containsKey cp r hc]

theorem evaluate_insufficient (reg : PaymentRegistry) (c : ContentId) (coin : Coin)
    (r : Address) (h : has_paid reg c r = false) (hv : coin.value < 5000000) :
    evaluate c reg coin r = (.PaymentInsufficient, reg) := by
  rcases (has_paid_false_iff reg c r).mp h with hn | ⟨cp, hg, hc⟩
  · have hck : Table.containsKey reg.payments c = false := by
      rw [Table.containsKey_eq_isSome_getVal, hn]; rfl
    have hcr : Table.containsKey ([] : Table Address Bool) r = false := rfl
    unfold evaluate seal_approve
    simp [hck, hcr, hv, Table.getVal_add_self]
  · have hck : Table.containsKey reg.payments c = true := by
      rw [Table.containsKey_eq_isSome_getVal, hg]; rfl
    unfold evaluate seal_approve
    simp [hck, hg, hc, hv]

theorem evaluate_frame (reg : PaymentRegistry) (c : ContentId) (coin : Coin)
    (r : Address) (c' : ContentId) (r' : Address) (h : ¬ (c' = c ∧ r' = r)) :
    has_paid (evaluate c reg coin r).2 c' r' = has_paid reg c' r' := by
  cases hp : has_paid reg c r with
  | true => rw [evaluate_already_paid reg c coin r hp]
  | false =>
    by_cases hv : 5000000 ≤ coin.value
    · rcases (has_paid_false_iff reg c r).mp hp with hn | ⟨cp, hg, hc⟩
      · rw [evaluate_eq_of_new_content reg c coin r hn hv]
        by_cases hc' : c' = c
        · subst hc'
          have hr' : r' ≠ r := fun hr => h ⟨rfl, hr⟩
          unfold has_paid
          rw [Table.getVal_setVal_self, Table.getVal_add_self, hn]
          simp [Table.containsKey, Table.add, Ne.symm hr']
        · unfold has_paid
          rw [Table.getVal_setVal_of_ne _ _ _ _ hc', Table.getVal_add_of_ne _ _ _ _ hc']
      · rw [evaluate_eq_of_seen_content reg c coin r cp hg hc hv]
        by_cases hc' : c' = c
        · subst hc'
          have hr' : r' ≠ r := fun hr => h ⟨rfl, hr⟩
          unfold has_paid
          rw [Table.getVal_setVal_self, hg]
          simp [Table.containsKey_add, Ne.symm hr']
        · unfold has_paid
          rw [Table.getVal_setVal_of_ne _ _ _ _ hc']
    · have hvlt : coin.value < 5000000 := not_le.mp hv
      rw [evaluate_insufficient reg c coin r hp hvlt]

theorem all_snd_setVal {κ ν : Type} [DecidableEq κ] (t : Table κ ν) (k : κ) (v : ν)
    (P : ν → Bool) (ht : (t.all fun e => P e.2) = true) (hv : P v = true) :
    ((Table.setVal t k v).all fun e => P e.2) = true := by
  unfold Table.setVal
  rw [List.all_map]
  rw [List.all_eq_true] at ht ⊢
  intro e he
  by_cases h : e.1 = k <;> simp [Function.comp, h, hv, ht e he]

theorem evaluate_preserves_allValuesTrue (reg : PaymentRegistry) (c : ContentId)
    (coin : Coin) (r : Address) (h : allValuesTrue reg = true) :
    allValuesTrue (evaluate c reg coin r).2 = true := by
  cases hp : has_paid reg c r with
  | true => rw [evaluate_already_paid reg c coin r hp]; exact h
  | false =>
    by_cases hv : 5000000 ≤ coin.value
    · rcases (has_paid_false_iff reg c r).mp hp with hn | ⟨cp, hg, hc⟩
      · rw [evaluate_eq_of_new_content reg c coin r hn hv]
        unfold allValuesTrue at h ⊢
        exact all_snd_setVal (Table.add reg.payments c []) c (Table.add [] r true)
          (fun inner => inner.all fun p => p.2)
          (by simpa [Table.add] using h)
          (by simp [Table.add])
      · rw [evaluate_eq_of_seen_content reg c coin r cp hg hc hv]
        unfold allValuesTrue at h ⊢
        exact all_snd_setVal reg.payments c (Table.add cp r true)
          (fun inner => inner.all fun p => p.2) h
          (by
            have hm := Table.getVal_eq_some_mem reg.payments c cp hg
            have hcp := (List.all_eq_true.mp h) (c, cp) hm
            simpa [Table.add] using hcp)
    · have hvlt : coin.value < 5000000 := not_le.mp hv
      rw [evaluate_insufficient reg c coin r hp hvlt]; exact h

theorem runSame_already_paid (reg : PaymentRegistry) (c : ContentId) (r : Address)
    (fees : List Nat) (h : has_paid reg c r = true) :
    runSame c r reg fees = (List.replicate fees.length .AlreadyPaid, reg) := by
  induction fees with
  | nil => rfl
  | cons f rest ih =>
    simp only [runSame, evaluate_already_paid reg c ⟨f⟩ r h, ih]
    simp [List.replicate_succ]

theorem has_paid_true_preserved (reg : PaymentRegistry) (op : Op) (c : ContentId)
    (r : Address) (h : has_paid reg c r = true) :
    has_paid (evaluate op.content reg ⟨op.fee⟩ op.sender).2 c r = true := by
  by_cases hm : c = op.content ∧ r = op.sender
  · obtain ⟨hc, hr⟩ := hm
    subst hc; subst hr
    rw [evaluate_already_paid reg op.content ⟨op.fee⟩ op.sender h]
    exact h
  · rw [evaluate_frame _ _ _ _ _ _ hm]
    exact h

theorem has_paid_false_preserved (reg : PaymentRegistry) (op : Op) (c : ContentId)
    (r : Address) (h : has_paid reg c r = false)
    (hop : ¬ (op.content = c ∧ op.sender = r ∧ 5000000 ≤ op.fee)) :
    has_paid (evaluate op.content reg ⟨op.fee⟩ op.sender).2 c r = false := by
  by_cases hm : c = op.content ∧ r = op.sender
  · obtain ⟨hc, hr⟩ := hm
    subst hc; subst hr
    have hfee : ¬ 5000000 ≤ op.fee := fun hf => hop ⟨rfl, rfl, hf⟩
    rw [evaluate_insufficient reg op.content ⟨op.fee⟩ op.sender h (not_le.mp hfee)]
    exact h
  · rw [evaluate_frame _ _ _ _ _ _ hm]
    exact h

theorem runOps_true_preserved (c : ContentId) (r : Address) (ops : List Op) :
    ∀ reg : PaymentRegistry, has_paid reg c r = true →
      has_paid (runOps reg ops) c r = true := by
  induction ops with
  | nil => intro reg h; exact h
  | cons op rest ih =>
    intro reg h
    exact ih _ (has_paid_true_preserved reg op c r h)

theorem runOps_false_preserved (c : ContentId) (r : Address) (ops : List Op)
    (hops : ∀ op ∈ ops, ¬ (op.content = c ∧ op.sender = r ∧ 5000000 ≤ op.fee)) :
    ∀ reg : PaymentRegistry, has_paid reg c r = false →
      has_paid (runOps reg ops) c r = false := by
  induction ops with
  | nil => intro reg h; exact h
  | cons op rest ih =>
    intro reg h
    exact ih (fun o ho => hops o (List.mem_cons_of_mem op ho)) _
      (has_paid_false_preserved reg op c r h (hops op (List.mem_cons_self op rest)))

theorem runOps_preserves_allValuesTrue (ops : List Op) :
    ∀ reg : PaymentRegistry, allValuesTrue reg = true →
      allValuesTrue (runOps reg ops) = true := by
  induction ops with
  | nil => intro reg h; exact h
  | cons op rest ih =>
    intro reg h
    exact ih _ (evaluate_preserves_allValuesTrue reg op.content ⟨op.fee⟩ op.sender h)

theorem has_paid_iff_storedFlag (reg : PaymentRegistry) (c : ContentId)
    (r : Address) (h : allValuesTrue reg = true) :
    (has_paid reg c r = true ↔ storedFlag reg c r = some true) := by
  unfold has_paid storedFlag
  cases hg : Table.getVal reg.payments c with
  | none => simp
  | some cp =>
    simp only [Option.some_bind]
    rw [Table.containsKey_eq_isSome_getVal]
    cases hgv : Table.getVal cp r with
    | none => simp
    | some b =>
      have hm1 := Table.getVal_eq_some_mem reg.payments c cp hg
      have hm2 := Table.getVal_eq_some_mem cp r b hgv
      have hb : b = true := by
        unfold allValuesTrue at h
        have h1 := (List.all_eq_true.mp h) (c, cp) hm1
        exact (List.all_eq_true.mp h1) (r, b) hm2
      subst hb
      simp

/-!
Claim theorems.
-/

/-- C1: for a (content, requester) pair with no payment record, a
`seal_approve` call with a coin worth at least the fixed 5,000,000-unit fee
takes the `PaymentAccepted` path and records the payment, so `has_paid`
returns true immediately afterwards; exactly 5,000,000 suffices (witness). -/
theorem first_payment_accepted (reg : PaymentRegistry) (c : ContentId)
    (r : Address) (v : Nat) (h : has_paid reg c r = false)
    (hv : 5000000 ≤ v) :
    (evaluate c reg ⟨v⟩ r).1 = .PaymentAccepted ∧
    has_paid (evaluate c reg ⟨v⟩ r).2 c r = true := by
  obtain ⟨h1, h2, _⟩ := evaluate_accepts reg c ⟨v⟩ r h hv
  exact ⟨h1, h2⟩

/-- Witness for C1: spec Scenario 1, instrument of exactly 5,000,000 for
unseen content "blob-1". -/
theorem first_payment_accepted_witness :
    has_paid init_registry blob1 7 = false ∧ 5000000 ≤ 5000000 ∧
    (evaluate blob1 init_registry ⟨5000000⟩ 7).1 = .PaymentAccepted ∧
    has_paid (evaluate blob1 init_registry ⟨5000000⟩ 7).2 blob1 7 = true :=
  ⟨by decide, by decide,
    first_payment_accepted init_registry blob1 7 5000000 (by decide) (by decide)⟩

/-- C2: with no payment record and a coin below the fee, `seal_approve`
aborts with `ENotPaid` (reported `PaymentInsufficient`) and the whole
registry state is exactly the state before the call, so `has_paid` stays
false. -/
theorem insufficient_payment_rejected (reg : PaymentRegistry) (c : ContentId)
    (r : Address) (v : Nat) (h : has_paid reg c r = false)
    (hv : v < 5000000) :
    evaluate c reg ⟨v⟩ r = (.PaymentInsufficient, reg) ∧
    has_paid (evaluate c reg ⟨v⟩ r).2 c r = false := by
  have he := evaluate_insufficient reg c ⟨v⟩ r h hv
  refine ⟨he, ?_⟩
  rw [he]
  exact h

/-- Witness for C2: spec Scenario 2, instrument of value 1,000. -/
theorem insufficient_payment_rejected_witness :
    has_paid init_registry blob1 7 = false ∧ 1000 < 5000000 ∧
    evaluate blob1 init_registry ⟨1000⟩ 7 = (.PaymentInsufficient, init_registry) ∧
    has_paid (evaluate blob1 init_registry ⟨1000⟩ 7).2 blob1 7 = false :=
  ⟨by decide, by decide,
    insufficient_payment_rejected init_registry blob1 7 1000 (by decide) (by decide)⟩

/-- C3: on a pair that already has a payment record, `seal_approve` takes
the early-return path (`AlreadyPaid`) for every coin value, zero included:
the fee assertion is never reached and the registry is unchanged. -/
theorem already_paid_fast_path (reg : PaymentRegistry) (c : ContentId)
    (r : Address) (h : has_paid reg c r = true) :
    ∀ v : Nat, evaluate c reg ⟨v⟩ r = (.AlreadyPaid, reg) :=
  fun v => evaluate_already_paid reg c ⟨v⟩ r h

/-- Witness for C3: spec Scenario 3, zero-value instrument after the
payment of Scenario 1. -/
theorem already_paid_fast_path_witness :
    has_paid paidReg1 blob1 7 = true ∧
    evaluate blob1 paidReg1 ⟨0⟩ 7 = (.AlreadyPaid, paidReg1) :=
  ⟨by decide, already_paid_fast_path paidReg1 blob1 7 (by decide) 0⟩

/-- C4: payment is monotone and permanent. Starting from the freshly
initialised registry, a pair's `has_paid` is false as long as no
sufficient-fee `seal_approve` for that pair has run, and once true it stays
true across every further sequence of `seal_approve` transactions
(`has_paid` itself is read-only, so only `seal_approve` calls can move the
state). -/
theorem payment_monotone_permanent (c : ContentId) (r : Address)
    (ops ops2 : List Op) :
    ((∀ op ∈ ops, ¬ (op.content = c ∧ op.sender = r ∧ 5000000 ≤ op.fee)) →
      has_paid (runOps init_registry ops) c r = false) ∧
    (∀ reg : PaymentRegistry, has_paid reg c r = true →
      has_paid (runOps reg ops2) c r = true) := by
  constructor
  · intro hops
    exact runOps_false_preserved c r ops hops init_registry rfl
  · intro reg h
    exact runOps_true_preserved c r ops2 reg h

/-- Witness for C4: an insufficient-fee call and a foreign pair leave
`has_paid` false; after requester 7 paid for "blob-1", further calls keep
it true. -/
theorem payment_monotone_permanent_witness :
    has_paid (runOps init_registry [⟨blob1, 1000, 7⟩, ⟨[1, 2], 6000000, 8⟩]) blob1 7 = false ∧
    has_paid (runOps paidReg1 [⟨blob1, 0, 7⟩, ⟨[1, 2], 6000000, 8⟩]) blob1 7 = true := by
  have h := payment_monotone_permanent blob1 7
    [⟨blob1, 1000, 7⟩, ⟨[1, 2], 6000000, 8⟩] [⟨blob1, 0, 7⟩, ⟨[1, 2], 6000000, 8⟩]
  exact ⟨h.1 (by decide), h.2 paidReg1 (by decide)⟩

/-- C5: exactly-once semantics across any serialisation of N first-time
`seal_approve` transactions for one pair, all with sufficient funds. Sui
executes transactions touching the shared registry in some total order and
each `seal_approve` runs atomically (its check-then-record sequence is one
transaction, never separately observable), so any concurrent schedule is
some `runSame` list: the first call records and returns `PaymentAccepted`,
the remaining N−1 observe `AlreadyPaid`, and exactly one entry for the
pair exists afterwards — never N, never zero. -/
theorem exactly_once_serialized (reg : PaymentRegistry) (c : ContentId)
    (r : Address) (f : Nat) (rest : List Nat)
    (h0 : has_paid reg c r = false) (hf : 5000000 ≤ f)
    (hrest : ∀ g ∈ rest, 5000000 ≤ g) :
    (runSame c r reg (f :: rest)).1 =
      .PaymentAccepted :: List.replicate rest.length .AlreadyPaid ∧
    pairEntryCount (runSame c r reg (f :: rest)).2 c r = 1 := by
  obtain ⟨h1, h2, h3⟩ := evaluate_accepts reg c ⟨f⟩ r h0 hf
  simp only [runSame]
  rw [runSame_already_paid _ c r rest h2]
  exact ⟨by rw [h1], h3⟩

/-- Witness for C5: three rival sufficient-fee calls for one unseen pair. -/
theorem exactly_once_serialized_witness :
    has_paid init_registry blob1 7 = false ∧
    (runSame blob1 7 init_registry [5000000, 5000001, 6000000]).1 =
      [.PaymentAccepted, .AlreadyPaid, .AlreadyPaid] ∧
    pairEntryCount (runSame blob1 7 init_registry [5000000, 5000001, 6000000]).2 blob1 7 = 1 := by
  have h := exactly_once_serialized init_registry blob1 7 5000000
    [5000001, 6000000] (by decide) (by decide) (by decide)
  exact ⟨by decide, h.1, h.2⟩

/-- C6: `seal_approve` is idempotent on an already-paid pair: two calls in
a row both take the `AlreadyPaid` path and the total number of recorded
(content, requester) entries is unchanged. -/
theorem evaluate_idempotent_on_paid (reg : PaymentRegistry) (c : ContentId)
    (r : Address) (v1 v2 : Nat) (h : has_paid reg c r = true) :
    (evaluate c reg ⟨v1⟩ r).1 = .AlreadyPaid ∧
    (evaluate c (evaluate c reg ⟨v1⟩ r).2 ⟨v2⟩ r).1 = .AlreadyPaid ∧
    ledgerSize (evaluate c (evaluate c reg ⟨v1⟩ r).2 ⟨v2⟩ r).2 = ledgerSize reg := by
  simp [evaluate_already_paid reg c ⟨v1⟩ r h, evaluate_already_paid reg c ⟨v2⟩ r h]

/-- Witness for C6: two repeat calls on the paid "blob-1" pair. -/
theorem evaluate_idempotent_on_paid_witness :
    has_paid paidReg1 blob1 7 = true ∧
    (evaluate blob1 paidReg1 ⟨5000000⟩ 7).1 = .AlreadyPaid ∧
    (evaluate blob1 (evaluate blob1 paidReg1 ⟨5000000⟩ 7).2 ⟨0⟩ 7).1 = .AlreadyPaid ∧
    ledgerSize (evaluate blob1 (evaluate blob1 paidReg1 ⟨5000000⟩ 7).2 ⟨0⟩ 7).2 =
      ledgerSize paidReg1 :=
  ⟨by decide, evaluate_idempotent_on_paid paidReg1 blob1 7 5000000 0 (by decide)⟩

/-- C7: frame property of one `seal_approve` call on (content `a`,
requester `r`): every pair (b, s) other than (a, r) keeps its `has_paid`
value — across the accepted, already-paid and insufficient paths alike, so
in particular across every successful call. -/
theorem payment_frame_property (reg : PaymentRegistry) (a : ContentId)
    (r : Address) (v : Nat) (b : ContentId) (s : Address)
    (h : ¬ (b = a ∧ s = r)) :
    has_paid (evaluate a reg ⟨v⟩ r).2 b s = has_paid reg b s :=
  evaluate_frame reg a ⟨v⟩ r b s h

/-- Witness for C7: spec Scenario 4 shape — requester 7 pays for "blob-1";
requester 8's flag for the same content and requester 7's flag for another
content are both untouched. -/
theorem payment_frame_property_witness :
    ¬ (blob1 = blob1 ∧ 8 = 7) ∧
    has_paid (evaluate blob1 init_registry ⟨5000000⟩ 7).2 blob1 8 =
      has_paid init_registry blob1 8 :=
  ⟨by decide, payment_frame_property init_registry blob1 7 5000000 blob1 8 (by decide)⟩

/-- C8 (code evaluation at the failing input): a first-time call with a
coin of exactly the fee takes the `PaymentAccepted` path, yet the caller
still holds the coin with its full value — `seal_approve` receives
`fee_coin: &Coin<SUI>` by immutable reference, only reads `coin::value`,
and never consumes, splits or transfers it on any path. -/
theorem coin_untouched_on_accept :
    (evaluateWithCoin blob1 init_registry ⟨5000000⟩ 7).1 = .PaymentAccepted ∧
    (evaluateWithCoin blob1 init_registry ⟨5000000⟩ 7).2.2 = ⟨5000000⟩ := by
  decide

/-- C9 counterexample: the pipeline applies no timeout. When the content
fetch (step 1), the wallet signature (step 3) or the decrypt call (step 6)
never settles, `handleDecrypt` hangs instead of failing with an error
distinguishable as "Timeout" — the source has no `AbortController`,
`setTimeout` or `Promise.race` around any await. -/
theorem no_timeout_pipeline_hangs_cex :
    handleDecrypt .hang (.ok ()) (.ok "sig") (.ok [1]) (.ok [1]) = .hangs ∧
    handleDecrypt (.ok [1]) (.ok ()) .hang (.ok [1]) (.ok [1]) = .hangs ∧
    handleDecrypt (.ok [1]) (.ok ()) (.ok "sig") (.ok [1]) .hang = .hangs := by
  refine ⟨rfl, ?_, ?_⟩ <;> rfl

/-- C9 amended: no timeout is applied to the network or user-interaction
bound steps. Whenever the fetch, the signature collection or the
decryption promise never settles — whatever the behaviour of the other
steps — the pipeline hangs indefinitely; it never produces a "Timeout"
failure. -/
theorem pipeline_hangs_when_step_never_settles
    (b2 : StepBehavior Unit) (b3 : StepBehavior String)
    (b4 b5 : StepBehavior (List Nat)) (x : Nat) (xs : List Nat)
    (u : Unit) (s : String) (y : Nat) (ys : List Nat) :
    handleDecrypt .hang b2 b3 b4 b5 = .hangs ∧
    handleDecrypt (.ok (x :: xs)) (.ok u) .hang b4 b5 = .hangs ∧
    handleDecrypt (.ok (x :: xs)) (.ok u) (.ok s) (.ok (y :: ys)) .hang = .hangs := by
  refine ⟨rfl, ?_, ?_⟩ <;> simp [handleDecrypt, awaitStep]

/-- C10: in every state reachable from the initialised registry by
`seal_approve` transactions, every inner-table entry stores the boolean
`true` (the value `false` is never written), and therefore `has_paid`'s
membership test coincides with the stored paid flag. -/
theorem registry_values_all_true (ops : List Op) (c : ContentId) (r : Address) :
    allValuesTrue (runOps init_registry ops) = true ∧
    (has_paid (runOps init_registry ops) c r = true ↔
      storedFlag (runOps init_registry ops) c r = some true) := by
  have hall := runOps_preserves_allValuesTrue ops init_registry (by decide)
  exact ⟨hall, has_paid_iff_storedFlag _ c r hall⟩

end Walrus
